import Mathlib

/-!
Shallow embedding of the token-image preload scheduler implemented in
`src/packages/app/src/hooks/usePreloadTokenImages.ts`.

The hook receives an ordered list of vault records (`VaultData`), and, after a
100 ms deferral, partitions it into batches of 15, issuing per-item image
loads through a shared query cache with a 150 ms pacing delay between
batches.  We model the mutable runtime state (the hook's `preloadedSet` ref,
the shared query-client cache, and an observable event trace recording load
attempts, diagnostic failure logs, and pacing delays) as an explicit
`SchedulerState`, and each operation of the source as a state transformer.

External collaborators that are not part of this repository's source are
parameters: `getSvgAsset` (the pure URL-construction utility) and `loadOk`
(the browser image-load primitive, as an oracle saying whether a given load
succeeds).
-/

/-- The `asset` field of a `VaultData` record; only its `address` is used. -/
structure VaultAsset where
  address : String
deriving DecidableEq, Repr

/-- A vault record as consumed by the hook: `vault.chainId` and
`vault.asset.address`. -/
structure VaultData where
  chainId : Nat
  asset : VaultAsset
deriving DecidableEq, Repr

/-- React-query key `['token-image', chainId, address.toLowerCase()]`. -/
abbrev QueryKey := String × Nat × String

/-- Observable events of a run: a load attempt being issued for an item, a
diagnostic failure log (`console.debug` in the `catch`), and a pacing delay
(`setTimeout(resolve, delay)`). -/
inductive Event where
  | attempt (chainId : Nat) (address : String)
  | failure (address : String)
  | delay (ms : Nat)
deriving DecidableEq, Repr

/-- The mutable state touched by the scheduler: the hook's `preloadedSet`
ref, the shared query-client cache (association list, most recent write
first), and the event trace. -/
structure SchedulerState where
  preloadedSet : List String
  cache : List (QueryKey × String)
  trace : List Event
deriving DecidableEq, Repr

/-- `queryClient.getQueryData(queryKey)`: first matching entry, if any. -/
def lookupCache : List (QueryKey × String) → QueryKey → Option String
  | [], _ => none
  | (k, v) :: rest, q => if k = q then some v else lookupCache rest q

/-- Cache write performed by a successful `prefetchQuery`: the new entry
shadows any older entry for the same key. -/
def setCache (c : List (QueryKey × String)) (q : QueryKey) (v : String) :
    List (QueryKey × String) :=
  (q, v) :: c

/-- JavaScript truthiness of `getQueryData`'s result (`string | undefined`):
`undefined` and the empty string are falsy, every other string is truthy. -/
def truthy : Option String → Bool
  | none => false
  | some s => s != ""

/-- `address.toLowerCase()`: lower-case every character (written over the
character list so that it reduces definitionally on concrete inputs). -/
def lowercase (s : String) : String := String.mk (s.data.map Char.toLower)

/-- The dedup key ``${chainId}-${address.toLowerCase()}``. -/
def cacheKeyOf (chainId : Nat) (address : String) : String :=
  toString chainId ++ "-" ++ lowercase address

/-- The query key `['token-image', chainId, address.toLowerCase()]`. -/
def queryKeyOf (chainId : Nat) (address : String) : QueryKey :=
  ("token-image", chainId, lowercase address)

/-- Recover the dedup key determined by a query key's chain id and
lowercased-address components. -/
def cacheKeyOfQuery (q : QueryKey) : String :=
  toString q.2.1 ++ "-" ++ q.2.2

/-- `batchSize = 15` from the source. -/
def batchSize : Nat := 15

/-- `delay = 150` (ms) from the source. -/
def delay : Nat := 150

/-- The initial deferral of the whole run: `setTimeout(preloadInBatches, 100)`. -/
def initialDelayMs : Nat := 100

/-- One `preloadImage(chainId, address)` call.  Skips when the dedup key is
already in `preloadedSet`, then when the cache already holds a truthy value;
otherwise marks the key attempted, issues the load (an `attempt` event), and
either stores the resolved URL in the cache (success) or records a
diagnostic `failure` event and swallows the error. -/
def preloadImage (getSvgAsset : Nat → String → String)
    (loadOk : Nat → String → Bool) (st : SchedulerState)
    (chainId : Nat) (address : String) : SchedulerState :=
  let imageUrl := getSvgAsset chainId address
  let queryKey := queryKeyOf chainId address
  let cacheKey := cacheKeyOf chainId address
  if cacheKey ∈ st.preloadedSet then st
  else if truthy (lookupCache st.cache queryKey) then st
  else
    let st1 : SchedulerState :=
      { st with preloadedSet := cacheKey :: st.preloadedSet,
                trace := st.trace ++ [Event.attempt chainId address] }
    if loadOk chainId address then
      { st1 with cache := setCache st1.cache queryKey imageUrl }
    else
      { st1 with trace := st1.trace ++ [Event.failure address] }

/-- `Promise.allSettled(batch.map(vault => preloadImage(...)))`: every item of
the batch is processed; the synchronous dedup prefix of each item runs in
input order (single-threaded event loop). -/
def processBatch (getSvgAsset : Nat → String → String)
    (loadOk : Nat → String → Bool) (batch : List VaultData)
    (st : SchedulerState) : SchedulerState :=
  batch.foldl (fun s v => preloadImage getSvgAsset loadOk s v.chainId v.asset.address) st

/-- The pacing delay `await new Promise(resolve => setTimeout(resolve, delay))`. -/
def addDelay (st : SchedulerState) : SchedulerState :=
  { st with trace := st.trace ++ [Event.delay delay] }

/-- The `for (let i = 0; i < vaults.length; i += batchSize)` loop of
`preloadInBatches`: slice out `vaults.slice(i, i + batchSize)`, settle the
whole batch, and insert the pacing delay when `i + batchSize < vaults.length`. -/
def preloadLoop (getSvgAsset : Nat → String → String)
    (loadOk : Nat → String → Bool) (vaults : List VaultData)
    (i : Nat) (st : SchedulerState) : SchedulerState :=
  if _h : i < vaults.length then
    let batch := (vaults.drop i).take batchSize
    let st1 := processBatch getSvgAsset loadOk batch st
    let st2 := if i + batchSize < vaults.length then addDelay st1 else st1
    preloadLoop getSvgAsset loadOk vaults (i + batchSize) st2
  else st
termination_by vaults.length - i
decreasing_by simp [batchSize]; omega

/-- `preloadInBatches()`: run the batching loop from `i = 0`. -/
def preloadInBatches (getSvgAsset : Nat → String → String)
    (loadOk : Nat → String → Bool) (vaults : List VaultData)
    (st : SchedulerState) : SchedulerState :=
  preloadLoop getSvgAsset loadOk vaults 0 st

/-- Chunking worker, structurally recursive on a fuel that bounds the list
length (so that it reduces definitionally on concrete inputs). -/
def batchesOfFuel : Nat → List VaultData → List (List VaultData)
  | _, [] => []
  | 0, _ :: _ => []
  | fuel + 1, x :: xs =>
      ((x :: xs).take batchSize) :: batchesOfFuel fuel ((x :: xs).drop batchSize)

/-- The batch decomposition induced by the loop: successive
`slice(i, i + 15)` chunks of the input. -/
def batchesOf (l : List VaultData) : List (List VaultData) :=
  batchesOfFuel l.length l

/-- Structural companion of the loop: process a list of batches in order,
with a pacing delay after every batch except the last. -/
def runBatches (getSvgAsset : Nat → String → String)
    (loadOk : Nat → String → Bool) :
    List (List VaultData) → SchedulerState → SchedulerState
  | [], st => st
  | [b], st => processBatch getSvgAsset loadOk b st
  | b :: b2 :: rest, st =>
      runBatches getSvgAsset loadOk (b2 :: rest)
        (addDelay (processBatch getSvgAsset loadOk b st))

/-- One effect activation, assuming the deferral timer fires: the effect
returns immediately on an empty input (`if (!vaults || vaults.length === 0)
return`), otherwise runs `preloadInBatches`.  The state (in particular the
`preloadedSet` ref) is threaded from any prior run of the same mount. -/
def effectRun (getSvgAsset : Nat → String → String)
    (loadOk : Nat → String → Bool) (vaults : List VaultData)
    (st : SchedulerState) : SchedulerState :=
  if vaults.length = 0 then st else preloadInBatches getSvgAsset loadOk vaults st

/-- The effect together with its cleanup: `setTimeout(preloadInBatches, 100)`
whose handle the cleanup clears.  `cancelAt = some t` means the cleanup ran
at time `t` (ms after scheduling); a cancellation strictly before the
deferral elapses clears the pending timer, so the deferred task never runs. -/
def mountEffect (getSvgAsset : Nat → String → String)
    (loadOk : Nat → String → Bool) (vaults : List VaultData)
    (cancelAt : Option Nat) (st : SchedulerState) : SchedulerState :=
  match cancelAt with
  | some t =>
      if t < initialDelayMs then st
      else effectRun getSvgAsset loadOk vaults st
  | none => effectRun getSvgAsset loadOk vaults st

/-- Is an event a pacing delay? -/
def isDelay : Event → Bool
  | Event.delay _ => true
  | _ => false

/-- Number of pacing delays recorded in a trace. -/
def countDelays (tr : List Event) : Nat := tr.countP isDelay

/-- The dedup key of a load attempt, when the event is one. -/
def attemptKey : Event → Option String
  | Event.attempt c a => some (cacheKeyOf c a)
  | _ => none

/-- Number of load attempts in a trace whose dedup key is `k`. -/
def countKeyAttempts (k : String) (tr : List Event) : Nat :=
  tr.countP (fun e => attemptKey e == some k)

/-- The sequence of load attempts recorded in a trace, in order. -/
def attemptsOf (tr : List Event) : List (Nat × String) :=
  tr.filterMap (fun e =>
    match e with
    | Event.attempt c a => some (c, a)
    | _ => none)

/-- Two scheduler states agree when their attempted sets coincide, they have
recorded the same load attempts, and their caches coincide on every query
key whose dedup key has not been attempted.  Runs with different load
oracles preserve this relation. -/
def StatesAgree (st1 st2 : SchedulerState) : Prop :=
  st1.preloadedSet = st2.preloadedSet
  ∧ attemptsOf st1.trace = attemptsOf st2.trace
  ∧ ∀ q : QueryKey, cacheKeyOfQuery q ∉ st1.preloadedSet →
      lookupCache st1.cache q = lookupCache st2.cache q

/-- Number of load attempts for key `k` plus one pending credit when `k` has
not yet been marked attempted; invariant under every scheduler step. -/
def keyMeasure (k : String) (st : SchedulerState) : Nat :=
  countKeyAttempts k st.trace + (if k ∈ st.preloadedSet then 0 else 1)

/-- Concrete sample inputs used by witnesses and counterexamples. -/
def sampleVault (i : Nat) : VaultData := ⟨1, ⟨"0xa" ++ toString i⟩⟩

/-- A list of `n` distinct sample vault records. -/
def sampleVaults (n : Nat) : List VaultData := (List.range n).map sampleVault

/-- A concrete URL-construction function standing in for `getSvgAsset`. -/
def gSample : Nat → String → String :=
  fun c a => "svg/" ++ toString c ++ "/" ++ a

/-- A load oracle under which every image load succeeds. -/
def oSample : Nat → String → Bool := fun _ _ => true

/-- A load oracle under which every image load fails. -/
def oFail : Nat → String → Bool := fun _ _ => false

/-- The state at component mount: empty attempted set, empty cache, no events. -/
def stEmpty : SchedulerState := ⟨[], [], []⟩

/-- A first concrete input sequence for a run. -/
def runOneInput : List VaultData := [⟨1, ⟨"0xaa"⟩⟩]

/-- A changed input sequence (triggering a second run of the same mount)
that still contains the first run's vault reference. -/
def runTwoInput : List VaultData := [⟨1, ⟨"0xaa"⟩⟩, ⟨2, ⟨"0xbb"⟩⟩]

/-! ### Basic facts about the batch decomposition -/

theorem batchesOfFuel_nil (f : Nat) : batchesOfFuel f [] = [] := by
  cases f <;> rfl

theorem batchesOfFuel_succ (f : Nat) (x : VaultData) (xs : List VaultData) :
    batchesOfFuel (f + 1) (x :: xs) =
      ((x :: xs).take batchSize) :: batchesOfFuel f ((x :: xs).drop batchSize) := rfl

theorem batchesOfFuel_fuel_eq :
    ∀ (f1 f2 : Nat) (l : List VaultData), l.length ≤ f1 → l.length ≤ f2 →
      batchesOfFuel f1 l = batchesOfFuel f2 l := by
  intro f1
  induction f1 with
  | zero =>
      intro f2 l h1 _
      have hl : l = [] := List.length_eq_zero.mp (Nat.le_antisymm h1 (Nat.zero_le _))
      subst hl
      rw [batchesOfFuel_nil, batchesOfFuel_nil]
  | succ f ih =>
      intro f2 l h1 h2
      cases l with
      | nil => rw [batchesOfFuel_nil, batchesOfFuel_nil]
      | cons x xs =>
          cases f2 with
          | zero => simp at h2
          | succ f2 =>
              rw [batchesOfFuel_succ, batchesOfFuel_succ]
              have hd : ((x :: xs).drop batchSize).length = (x :: xs).length - batchSize := by
                simp
              refine congrArg _ (ih f2 _ ?_ ?_) <;>
                (rw [hd]; simp only [List.length_cons, batchSize] at *; omega)

theorem batchesOf_nil : batchesOf [] = [] := rfl

theorem batchesOf_cons (x : VaultData) (xs : List VaultData) :
    batchesOf (x :: xs) =
      ((x :: xs).take batchSize) :: batchesOf ((x :: xs).drop batchSize) := by
  unfold batchesOf
  rw [show (x :: xs).length = xs.length + 1 from rfl, batchesOfFuel_succ]
  refine congrArg _ (batchesOfFuel_fuel_eq _ _ _ ?_ ?_) <;>
    simp [batchSize]

theorem batchesOf_eq_nil_iff (l : List VaultData) : batchesOf l = [] ↔ l = [] := by
  cases l with
  | nil => simp [batchesOf_nil]
  | cons x xs => simp [batchesOf_cons]

/-! ### The loop processes exactly the `batchesOf` chunks, in order -/

theorem preloadLoop_eq_runBatches_aux (g : Nat → String → String)
    (o : Nat → String → Bool) (vaults : List VaultData) :
    ∀ (n i : Nat), vaults.length - i ≤ n → ∀ st,
      preloadLoop g o vaults i st = runBatches g o (batchesOf (vaults.drop i)) st := by
  have hb : batchSize = 15 := rfl
  intro n
  induction n with
  | zero =>
      intro i hn st
      rw [preloadLoop, dif_neg (by omega), List.drop_eq_nil_of_le (by omega), batchesOf_nil]
      rfl
  | succ n ih =>
      intro i hn st
      by_cases h : i < vaults.length
      · rw [preloadLoop, dif_pos h]
        rw [ih (i + batchSize) (by omega)]
        have hlen : 0 < (vaults.drop i).length := by
          rw [List.length_drop]; omega
        cases hcons : vaults.drop i with
        | nil => rw [hcons] at hlen; simp at hlen
        | cons x xs =>
            have hdd : (x :: xs).drop batchSize = vaults.drop (i + batchSize) := by
              rw [← hcons, List.drop_drop, Nat.add_comm]
            rw [batchesOf_cons, hdd]
            by_cases hlt : i + batchSize < vaults.length
            · rw [if_pos hlt]
              have hne : vaults.drop (i + batchSize) ≠ [] := by
                intro hnil
                have := congrArg List.length hnil
                rw [List.length_drop] at this
                simp at this
                omega
              cases hc : batchesOf (vaults.drop (i + batchSize)) with
              | nil => exact absurd ((batchesOf_eq_nil_iff _).mp hc) hne
              | cons c cs => rfl
            · rw [if_neg hlt]
              rw [List.drop_eq_nil_of_le (by omega), batchesOf_nil]
              rfl
      · rw [preloadLoop, dif_neg h, List.drop_eq_nil_of_le (by omega), batchesOf_nil]
        rfl

theorem preloadInBatches_eq_runBatches (g : Nat → String → String)
    (o : Nat → String → Bool) (vaults : List VaultData) (st : SchedulerState) :
    preloadInBatches g o vaults st = runBatches g o (batchesOf vaults) st := by
  have h := preloadLoop_eq_runBatches_aux g o vaults vaults.length 0 (by omega) st
  simpa [preloadInBatches] using h

theorem batchesOf_length_aux :
    ∀ (n : Nat) (l : List VaultData), l.length ≤ n →
      (batchesOf l).length = (l.length + batchSize - 1) / batchSize := by
  have hb : batchSize = 15 := rfl
  intro n
  induction n with
  | zero =>
      intro l h
      have hl : l = [] := List.length_eq_zero.mp (Nat.le_antisymm h (Nat.zero_le _))
      subst hl
      simp [batchesOf_nil, hb]
  | succ n ih =>
      intro l h
      cases l with
      | nil => simp [batchesOf_nil, hb]
      | cons x xs =>
          rw [batchesOf_cons]
          have hdl : ((x :: xs).drop batchSize).length = (x :: xs).length - batchSize := by
            simp
          have hih := ih ((x :: xs).drop batchSize) (by rw [hdl]; omega)
          rw [List.length_cons, hih, hdl]
          have hxl : (x :: xs).length = xs.length + 1 := rfl
          rw [hb] at *
          omega

theorem batchesOf_length (l : List VaultData) :
    (batchesOf l).length = (l.length + batchSize - 1) / batchSize :=
  batchesOf_length_aux l.length l le_rfl

theorem batchesOf_getElem_aux :
    ∀ (n : Nat) (l : List VaultData), l.length ≤ n →
      ∀ (j : Nat), j < (batchesOf l).length →
        (batchesOf l)[j]? = some ((l.drop (batchSize * j)).take batchSize) := by
  intro n
  induction n with
  | zero =>
      intro l h j hj
      have hl : l = [] := List.length_eq_zero.mp (Nat.le_antisymm h (Nat.zero_le _))
      subst hl
      rw [batchesOf_nil] at hj
      simp at hj
  | succ n ih =>
      intro l h j hj
      cases l with
      | nil =>
          rw [batchesOf_nil] at hj
          simp at hj
      | cons x xs =>
          rw [batchesOf_cons]
          cases j with
          | zero => simp
          | succ j =>
              have hdl : ((x :: xs).drop batchSize).length = (x :: xs).length - batchSize := by
                simp
              have hb : batchSize = 15 := rfl
              have hjlt : j < (batchesOf ((x :: xs).drop batchSize)).length := by
                rw [batchesOf_cons, List.length_cons] at hj
                omega
              have hih := ih ((x :: xs).drop batchSize)
                (by rw [hdl]; simp only [List.length_cons, hb] at h ⊢; omega) j hjlt
              rw [List.getElem?_cons_succ, hih, List.drop_drop]
              have harith2 : batchSize + batchSize * j = batchSize * (j + 1) := by ring
              rw [harith2]

theorem batchesOf_getElem (l : List VaultData) (j : Nat)
    (hj : j < (batchesOf l).length) :
    (batchesOf l)[j]? = some ((l.drop (batchSize * j)).take batchSize) :=
  batchesOf_getElem_aux l.length l le_rfl j hj

theorem batchesOf_flatten_aux :
    ∀ (n : Nat) (l : List VaultData), l.length ≤ n → (batchesOf l).flatten = l := by
  intro n
  induction n with
  | zero =>
      intro l h
      have hl : l = [] := List.length_eq_zero.mp (Nat.le_antisymm h (Nat.zero_le _))
      subst hl
      rw [batchesOf_nil]
      rfl
  | succ n ih =>
      intro l h
      cases l with
      | nil => rw [batchesOf_nil]; rfl
      | cons x xs =>
          rw [batchesOf_cons]
          have hdl : ((x :: xs).drop batchSize).length = (x :: xs).length - batchSize := by
            simp
          have hb : batchSize = 15 := rfl
          have hih := ih ((x :: xs).drop batchSize)
            (by rw [hdl]; simp only [List.length_cons, hb] at h ⊢; omega)
          rw [List.flatten_cons, hih, List.take_append_drop]

theorem batchesOf_flatten (l : List VaultData) : (batchesOf l).flatten = l :=
  batchesOf_flatten_aux l.length l le_rfl

theorem batchesOf_mem_size_aux :
    ∀ (n : Nat) (l : List VaultData), l.length ≤ n →
      ∀ b ∈ batchesOf l, 0 < b.length ∧ b.length ≤ batchSize := by
  intro n
  induction n with
  | zero =>
      intro l h b hbmem
      have hl : l = [] := List.length_eq_zero.mp (Nat.le_antisymm h (Nat.zero_le _))
      subst hl
      rw [batchesOf_nil] at hbmem
      simp at hbmem
  | succ n ih =>
      intro l h b hbmem
      cases l with
      | nil => rw [batchesOf_nil] at hbmem; simp at hbmem
      | cons x xs =>
          rw [batchesOf_cons] at hbmem
          have hb : batchSize = 15 := rfl
          rcases List.mem_cons.mp hbmem with hhd | htl
          · subst hhd
            constructor
            · simp [hb]
            · simp
          · refine ih ((x :: xs).drop batchSize) ?_ b htl
            have hb : batchSize = 15 := rfl
            simp only [List.length_drop, List.length_cons, hb] at h ⊢
            omega

theorem batchesOf_size_of_not_last (l : List VaultData) (j : Nat)
    (hj : j + 1 < (batchesOf l).length) :
    ∃ b, (batchesOf l)[j]? = some b ∧ b.length = batchSize := by
  have hg := batchesOf_getElem l j (by omega)
  refine ⟨_, hg, ?_⟩
  have hlen := batchesOf_length l
  have hb : batchSize = 15 := rfl
  simp only [List.length_take, List.length_drop]
  refine Nat.min_eq_left ?_
  rw [hlen, hb] at hj
  rw [hb]
  omega

/-! ### Case analysis of a single `preloadImage` call -/

theorem preloadImage_skip_set (g : Nat → String → String) (o : Nat → String → Bool)
    (st : SchedulerState) (c : Nat) (a : String)
    (h : cacheKeyOf c a ∈ st.preloadedSet) :
    preloadImage g o st c a = st := by
  simp [preloadImage, h]

theorem preloadImage_skip_cache (g : Nat → String → String) (o : Nat → String → Bool)
    (st : SchedulerState) (c : Nat) (a : String)
    (h1 : cacheKeyOf c a ∉ st.preloadedSet)
    (h2 : truthy (lookupCache st.cache (queryKeyOf c a)) = true) :
    preloadImage g o st c a = st := by
  simp [preloadImage, h1, h2]

theorem preloadImage_load_ok (g : Nat → String → String) (o : Nat → String → Bool)
    (st : SchedulerState) (c : Nat) (a : String)
    (h1 : cacheKeyOf c a ∉ st.preloadedSet)
    (h2 : truthy (lookupCache st.cache (queryKeyOf c a)) = false)
    (h3 : o c a = true) :
    preloadImage g o st c a =
      SchedulerState.mk (cacheKeyOf c a :: st.preloadedSet)
        (setCache st.cache (queryKeyOf c a) (g c a))
        (st.trace ++ [Event.attempt c a]) := by
  simp [preloadImage, h1, h2, h3]

theorem preloadImage_load_fail (g : Nat → String → String) (o : Nat → String → Bool)
    (st : SchedulerState) (c : Nat) (a : String)
    (h1 : cacheKeyOf c a ∉ st.preloadedSet)
    (h2 : truthy (lookupCache st.cache (queryKeyOf c a)) = false)
    (h3 : o c a = false) :
    preloadImage g o st c a =
      SchedulerState.mk (cacheKeyOf c a :: st.preloadedSet) st.cache
        (st.trace ++ [Event.attempt c a, Event.failure a]) := by
  simp [preloadImage, h1, h2, h3]

/-- C1: for an input list of `N` vault references the scheduler forms exactly
`⌈N/15⌉` batches; batch `j` (0-indexed) is the input slice
`items 15*j .. min(15*(j+1), N) - 1` in input order; every batch except
possibly the last has size exactly 15; the concatenation of the batches is
the whole input in order; and the run processes exactly these batches
strictly in input order. -/
theorem preload_batch_partition (g : Nat → String → String)
    (o : Nat → String → Bool) (vaults : List VaultData) :
    (batchesOf vaults).length = (vaults.length + batchSize - 1) / batchSize
    ∧ (∀ j : Nat, j < (batchesOf vaults).length →
        (batchesOf vaults)[j]? = some ((vaults.drop (batchSize * j)).take batchSize))
    ∧ (∀ j : Nat, j + 1 < (batchesOf vaults).length →
        ∃ b, (batchesOf vaults)[j]? = some b ∧ b.length = batchSize)
    ∧ (batchesOf vaults).flatten = vaults
    ∧ ∀ st, preloadInBatches g o vaults st = runBatches g o (batchesOf vaults) st :=
  ⟨batchesOf_length vaults,
   fun j hj => batchesOf_getElem vaults j hj,
   fun j hj => batchesOf_size_of_not_last vaults j hj,
   batchesOf_flatten vaults,
   fun st => preloadInBatches_eq_runBatches g o vaults st⟩

/-- Witness for C1 at a concrete 20-item input: 2 batches, batch 1 is items
15–19, batch 0 has size exactly 15. -/
theorem preload_batch_partition_witness :
    1 < (batchesOf (sampleVaults 20)).length
    ∧ (batchesOf (sampleVaults 20))[1]? =
        some (((sampleVaults 20).drop (batchSize * 1)).take batchSize)
    ∧ (∃ b, (batchesOf (sampleVaults 20))[0]? = some b ∧ b.length = batchSize) :=
  ⟨by decide,
   (preload_batch_partition gSample oSample (sampleVaults 20)).2.1 1 (by decide),
   (preload_batch_partition gSample oSample (sampleVaults 20)).2.2.1 0 (by decide)⟩

/-! ### Pacing delays (C2) -/

theorem countDelays_append (t1 t2 : List Event) :
    countDelays (t1 ++ t2) = countDelays t1 + countDelays t2 := by
  simp [countDelays, List.countP_append]

theorem preloadImage_delays (g : Nat → String → String) (o : Nat → String → Bool)
    (st : SchedulerState) (c : Nat) (a : String) :
    countDelays (preloadImage g o st c a).trace = countDelays st.trace := by
  by_cases h1 : cacheKeyOf c a ∈ st.preloadedSet
  · rw [preloadImage_skip_set g o st c a h1]
  · by_cases h2 : truthy (lookupCache st.cache (queryKeyOf c a)) = true
    · rw [preloadImage_skip_cache g o st c a h1 h2]
    · rw [Bool.not_eq_true] at h2
      by_cases h3 : o c a = true
      · rw [preloadImage_load_ok g o st c a h1 h2 h3]
        simp [countDelays_append, countDelays, isDelay]
      · rw [Bool.not_eq_true] at h3
        rw [preloadImage_load_fail g o st c a h1 h2 h3]
        simp [countDelays_append, countDelays, isDelay]

theorem processBatch_delays (g : Nat → String → String) (o : Nat → String → Bool) :
    ∀ (b : List VaultData) (st : SchedulerState),
      countDelays (processBatch g o b st).trace = countDelays st.trace := by
  intro b
  induction b with
  | nil => intro st; rfl
  | cons v rest ih =>
      intro st
      show countDelays (processBatch g o rest (preloadImage g o st v.chainId v.asset.address)).trace
          = countDelays st.trace
      rw [ih, preloadImage_delays]

theorem addDelay_delays (st : SchedulerState) :
    countDelays (addDelay st).trace = countDelays st.trace + 1 := by
  simp [addDelay, countDelays_append, countDelays, isDelay]

theorem runBatches_delays (g : Nat → String → String) (o : Nat → String → Bool) :
    ∀ (bs : List (List VaultData)) (st : SchedulerState),
      countDelays (runBatches g o bs st).trace = countDelays st.trace + (bs.length - 1) := by
  intro bs
  induction bs with
  | nil => intro st; simp [runBatches]
  | cons b rest ih =>
      intro st
      cases rest with
      | nil =>
          show countDelays (processBatch g o b st).trace = countDelays st.trace + (1 - 1)
          rw [processBatch_delays]
          omega
      | cons b2 rest2 =>
          show countDelays (runBatches g o (b2 :: rest2) (addDelay (processBatch g o b st))).trace
              = countDelays st.trace + ((b2 :: rest2).length + 1 - 1)
          rw [ih, addDelay_delays, processBatch_delays]
          simp only [List.length_cons]
          omega

theorem preloadImage_delay_events (g : Nat → String → String) (o : Nat → String → Bool)
    (st : SchedulerState) (c : Nat) (a : String) (ms : Nat)
    (hmem : Event.delay ms ∈ (preloadImage g o st c a).trace) :
    Event.delay ms ∈ st.trace := by
  by_cases h1 : cacheKeyOf c a ∈ st.preloadedSet
  · rwa [preloadImage_skip_set g o st c a h1] at hmem
  · by_cases h2 : truthy (lookupCache st.cache (queryKeyOf c a)) = true
    · rwa [preloadImage_skip_cache g o st c a h1 h2] at hmem
    · rw [Bool.not_eq_true] at h2
      by_cases h3 : o c a = true
      · rw [preloadImage_load_ok g o st c a h1 h2 h3] at hmem
        rcases List.mem_append.mp hmem with h | h
        · exact h
        · simp at h
      · rw [Bool.not_eq_true] at h3
        rw [preloadImage_load_fail g o st c a h1 h2 h3] at hmem
        rcases List.mem_append.mp hmem with h | h
        · exact h
        · simp at h

theorem processBatch_delay_events (g : Nat → String → String) (o : Nat → String → Bool) :
    ∀ (b : List VaultData) (st : SchedulerState) (ms : Nat),
      Event.delay ms ∈ (processBatch g o b st).trace → Event.delay ms ∈ st.trace := by
  intro b
  induction b with
  | nil => intro st ms h; exact h
  | cons v rest ih =>
      intro st ms h
      exact preloadImage_delay_events g o st v.chainId v.asset.address ms (ih _ ms h)

theorem runBatches_delay_events (g : Nat → String → String) (o : Nat → String → Bool) :
    ∀ (bs : List (List VaultData)) (st : SchedulerState) (ms : Nat),
      Event.delay ms ∈ (runBatches g o bs st).trace →
        Event.delay ms ∈ st.trace ∨ ms = delay := by
  intro bs
  induction bs with
  | nil => intro st ms h; exact Or.inl h
  | cons b rest ih =>
      intro st ms h
      cases rest with
      | nil => exact Or.inl (processBatch_delay_events g o b st ms h)
      | cons b2 rest2 =>
          rcases ih (addDelay (processBatch g o b st)) ms h with hmem | heq
          · simp only [addDelay, List.mem_append] at hmem
            rcases hmem with hmem | hmem
            · exact Or.inl (processBatch_delay_events g o b st ms hmem)
            · simp at hmem
              exact Or.inr hmem
          · exact Or.inr heq

/-- C2: a run over `N > 0` items performs exactly `⌈N/15⌉ - 1` pacing delays
(zero when there is a single batch), every recorded pacing delay is the
150 ms one, and `runBatches` by construction inserts delays only between
consecutive batches, never after the last. -/
theorem preload_delay_count (g : Nat → String → String) (o : Nat → String → Bool)
    (vaults : List VaultData) (ps : List String) (qc : List (QueryKey × String))
    (_h : 0 < vaults.length) :
    countDelays (preloadInBatches g o vaults ⟨ps, qc, []⟩).trace
        = (vaults.length + batchSize - 1) / batchSize - 1
    ∧ ∀ ms : Nat,
        Event.delay ms ∈ (preloadInBatches g o vaults ⟨ps, qc, []⟩).trace → ms = delay := by
  rw [preloadInBatches_eq_runBatches]
  constructor
  · rw [runBatches_delays, batchesOf_length]
    simp [countDelays]
  · intro ms hmem
    rcases runBatches_delay_events g o (batchesOf vaults) ⟨ps, qc, []⟩ ms hmem with hin | heq
    · simp [countDelays] at hin
    · exact heq

/-- Witness for C2: a 20-item run from an empty state performs exactly one
inter-batch delay (`⌈20/15⌉ - 1 = 1`). -/
theorem preload_delay_count_witness :
    0 < (sampleVaults 20).length
    ∧ countDelays (preloadInBatches gSample oSample (sampleVaults 20) ⟨[], [], []⟩).trace
        = ((sampleVaults 20).length + batchSize - 1) / batchSize - 1 :=
  ⟨by decide,
   (preload_delay_count gSample oSample (sampleVaults 20) [] [] (by decide)).1⟩

/-! ### Failure isolation (C3) -/

theorem attemptsOf_append (t1 t2 : List Event) :
    attemptsOf (t1 ++ t2) = attemptsOf t1 ++ attemptsOf t2 := by
  simp [attemptsOf, List.filterMap_append]

theorem lookupCache_setCache_ne (cc : List (QueryKey × String)) (q q' : QueryKey)
    (v : String) (h : q ≠ q') :
    lookupCache (setCache cc q v) q' = lookupCache cc q' := by
  simp [setCache, lookupCache, h]

theorem StatesAgree_refl (st : SchedulerState) : StatesAgree st st :=
  ⟨rfl, rfl, fun _ _ => rfl⟩

theorem preloadImage_agree (g : Nat → String → String)
    (o1 o2 : Nat → String → Bool) (st1 st2 : SchedulerState)
    (c : Nat) (a : String) (h : StatesAgree st1 st2) :
    StatesAgree (preloadImage g o1 st1 c a) (preloadImage g o2 st2 c a) := by
  obtain ⟨hset, hatt, hcache⟩ := h
  by_cases h1 : cacheKeyOf c a ∈ st1.preloadedSet
  · rw [preloadImage_skip_set g o1 st1 c a h1,
        preloadImage_skip_set g o2 st2 c a (hset ▸ h1)]
    exact ⟨hset, hatt, hcache⟩
  · have h1' : cacheKeyOf c a ∉ st2.preloadedSet := hset ▸ h1
    have hkey : cacheKeyOfQuery (queryKeyOf c a) = cacheKeyOf c a := rfl
    have hlook : lookupCache st1.cache (queryKeyOf c a)
        = lookupCache st2.cache (queryKeyOf c a) :=
      hcache _ (by rw [hkey]; exact h1)
    by_cases h2 : truthy (lookupCache st1.cache (queryKeyOf c a)) = true
    · rw [preloadImage_skip_cache g o1 st1 c a h1 h2,
          preloadImage_skip_cache g o2 st2 c a h1' (by rw [← hlook]; exact h2)]
      exact ⟨hset, hatt, hcache⟩
    · rw [Bool.not_eq_true] at h2
      have h2' : truthy (lookupCache st2.cache (queryKeyOf c a)) = false := by
        rw [← hlook]; exact h2
      have hsets : cacheKeyOf c a :: st1.preloadedSet = cacheKeyOf c a :: st2.preloadedSet := by
        rw [hset]
      have hatts : attemptsOf (st1.trace ++ [Event.attempt c a])
          = attemptsOf (st2.trace ++ [Event.attempt c a]) := by
        rw [attemptsOf_append, attemptsOf_append, hatt]
      have hattf : attemptsOf (st1.trace ++ [Event.attempt c a, Event.failure a])
          = attemptsOf (st2.trace ++ [Event.attempt c a, Event.failure a]) := by
        rw [attemptsOf_append, attemptsOf_append, hatt]
      have hcache' : ∀ q : QueryKey,
          cacheKeyOfQuery q ∉ cacheKeyOf c a :: st1.preloadedSet →
          ∀ (v1 v2 : Bool),
            lookupCache (if v1 then setCache st1.cache (queryKeyOf c a) (g c a) else st1.cache) q
              = lookupCache (if v2 then setCache st2.cache (queryKeyOf c a) (g c a) else st2.cache) q := by
        intro q hq v1 v2
        have hqne : queryKeyOf c a ≠ q := by
          intro hcontra
          exact hq (by rw [← hcontra, hkey]; exact List.mem_cons_self _ _)
        have hq' : cacheKeyOfQuery q ∉ st1.preloadedSet := fun hin =>
          hq (List.mem_cons_of_mem _ hin)
        cases v1 <;> cases v2 <;>
          simp only [lookupCache_setCache_ne _ _ _ _ hqne, Bool.false_eq_true,
            if_false, if_true, hcache q hq']
      by_cases ho1 : o1 c a = true
      · rw [preloadImage_load_ok g o1 st1 c a h1 h2 ho1]
        by_cases ho2 : o2 c a = true
        · rw [preloadImage_load_ok g o2 st2 c a h1' h2' ho2]
          exact ⟨hsets, hatts, fun q hq => by
            have := hcache' q hq true true
            simpa using this⟩
        · rw [Bool.not_eq_true] at ho2
          rw [preloadImage_load_fail g o2 st2 c a h1' h2' ho2]
          refine ⟨hsets, ?_, fun q hq => by
            have := hcache' q hq true false
            simpa using this⟩
          rw [attemptsOf_append, attemptsOf_append, hatt]
          rfl
      · rw [Bool.not_eq_true] at ho1
        rw [preloadImage_load_fail g o1 st1 c a h1 h2 ho1]
        by_cases ho2 : o2 c a = true
        · rw [preloadImage_load_ok g o2 st2 c a h1' h2' ho2]
          refine ⟨hsets, ?_, fun q hq => by
            have := hcache' q hq false true
            simpa using this⟩
          rw [attemptsOf_append, attemptsOf_append, hatt]
          rfl
        · rw [Bool.not_eq_true] at ho2
          rw [preloadImage_load_fail g o2 st2 c a h1' h2' ho2]
          exact ⟨hsets, hattf, fun q hq => by
            have := hcache' q hq false false
            simpa using this⟩

theorem processBatch_agree (g : Nat → String → String)
    (o1 o2 : Nat → String → Bool) :
    ∀ (b : List VaultData) (st1 st2 : SchedulerState), StatesAgree st1 st2 →
      StatesAgree (processBatch g o1 b st1) (processBatch g o2 b st2) := by
  intro b
  induction b with
  | nil => intro st1 st2 h; exact h
  | cons v rest ih =>
      intro st1 st2 h
      exact ih _ _ (preloadImage_agree g o1 o2 st1 st2 v.chainId v.asset.address h)

/-- Complete case analysis of one `preloadImage` call: either it is a skip
(state unchanged), or the item was not yet attempted and the call marks it
attempted and issues the load, succeeding or failing. -/
theorem preloadImage_cases (g : Nat → String → String) (o : Nat → String → Bool)
    (st : SchedulerState) (c : Nat) (a : String) :
    preloadImage g o st c a = st
    ∨ (cacheKeyOf c a ∉ st.preloadedSet
       ∧ truthy (lookupCache st.cache (queryKeyOf c a)) = false
       ∧ (preloadImage g o st c a =
            SchedulerState.mk (cacheKeyOf c a :: st.preloadedSet)
              (setCache st.cache (queryKeyOf c a) (g c a))
              (st.trace ++ [Event.attempt c a])
          ∨ preloadImage g o st c a =
            SchedulerState.mk (cacheKeyOf c a :: st.preloadedSet) st.cache
              (st.trace ++ [Event.attempt c a, Event.failure a]))) := by
  by_cases h1 : cacheKeyOf c a ∈ st.preloadedSet
  · exact Or.inl (preloadImage_skip_set g o st c a h1)
  · by_cases h2 : truthy (lookupCache st.cache (queryKeyOf c a)) = true
    · exact Or.inl (preloadImage_skip_cache g o st c a h1 h2)
    · rw [Bool.not_eq_true] at h2
      by_cases h3 : o c a = true
      · exact Or.inr ⟨h1, h2, Or.inl (preloadImage_load_ok g o st c a h1 h2 h3)⟩
      · rw [Bool.not_eq_true] at h3
        exact Or.inr ⟨h1, h2, Or.inr (preloadImage_load_fail g o st c a h1 h2 h3)⟩

/-- C3: a load failure of one item never prevents its batch siblings from
being attempted: after settling a whole batch, the attempted set and the
recorded sequence of load attempts are identical under any two load oracles
(in particular under an all-failing one), so per-item failures are isolated;
and a per-item failure is recorded as exactly one diagnostic `failure` event
after the item's `attempt` event and is otherwise swallowed — the state
transformer is total, so nothing escapes to the caller. -/
theorem preload_failure_isolation (g : Nat → String → String)
    (o1 o2 : Nat → String → Bool) (b : List VaultData) (st : SchedulerState) :
    (processBatch g o1 b st).preloadedSet = (processBatch g o2 b st).preloadedSet
    ∧ attemptsOf (processBatch g o1 b st).trace
        = attemptsOf (processBatch g o2 b st).trace
    ∧ ∀ (c : Nat) (a : String),
        cacheKeyOf c a ∉ st.preloadedSet →
        truthy (lookupCache st.cache (queryKeyOf c a)) = false →
        o1 c a = false →
        preloadImage g o1 st c a =
          SchedulerState.mk (cacheKeyOf c a :: st.preloadedSet) st.cache
            (st.trace ++ [Event.attempt c a, Event.failure a]) := by
  have h := processBatch_agree g o1 o2 b st st (StatesAgree_refl st)
  exact ⟨h.1, h.2.1, fun c a h1 h2 h3 => preloadImage_load_fail g o1 st c a h1 h2 h3⟩

/-- Witness for C3: with every load failing versus every load succeeding,
a concrete 2-item batch ends with the same attempted set, and the failing
item's state change is exactly the diagnostic failure record. -/
theorem preload_failure_isolation_witness :
    (processBatch gSample oFail (sampleVaults 2) stEmpty).preloadedSet
        = (processBatch gSample oSample (sampleVaults 2) stEmpty).preloadedSet
    ∧ cacheKeyOf 1 "0xB" ∉ stEmpty.preloadedSet
    ∧ truthy (lookupCache stEmpty.cache (queryKeyOf 1 "0xB")) = false
    ∧ oFail 1 "0xB" = false
    ∧ preloadImage gSample oFail stEmpty 1 "0xB" =
        SchedulerState.mk (cacheKeyOf 1 "0xB" :: stEmpty.preloadedSet) stEmpty.cache
          (stEmpty.trace ++ [Event.attempt 1 "0xB", Event.failure "0xB"]) :=
  ⟨(preload_failure_isolation gSample oFail oSample (sampleVaults 2) stEmpty).1,
   by decide, by decide, by decide,
   (preload_failure_isolation gSample oFail oSample (sampleVaults 2) stEmpty).2.2
     1 "0xB" (by decide) (by decide) (by decide)⟩

/-! ### At most one attempt per dedup key (C4) -/

theorem countKeyAttempts_append (k : String) (t1 t2 : List Event) :
    countKeyAttempts k (t1 ++ t2) = countKeyAttempts k t1 + countKeyAttempts k t2 := by
  simp [countKeyAttempts, List.countP_append]

theorem countKeyAttempts_attempt (k : String) (c : Nat) (a : String) :
    countKeyAttempts k [Event.attempt c a] = if cacheKeyOf c a = k then 1 else 0 := by
  by_cases h : cacheKeyOf c a = k <;>
    simp [countKeyAttempts, attemptKey, h]

theorem countKeyAttempts_failure (k : String) (a : String) :
    countKeyAttempts k [Event.failure a] = 0 := by
  simp [countKeyAttempts, attemptKey]

theorem countKeyAttempts_delay (k : String) (ms : Nat) :
    countKeyAttempts k [Event.delay ms] = 0 := by
  simp [countKeyAttempts, attemptKey]

theorem countKeyAttempts_attempt_failure (k : String) (c : Nat) (a : String) :
    countKeyAttempts k [Event.attempt c a, Event.failure a]
      = if cacheKeyOf c a = k then 1 else 0 := by
  have hsplit : [Event.attempt c a, Event.failure a]
      = [Event.attempt c a] ++ [Event.failure a] := rfl
  rw [hsplit, countKeyAttempts_append, countKeyAttempts_attempt, countKeyAttempts_failure]
  omega

theorem keyMeasure_attempt_step (st : SchedulerState) (c : Nat) (a k : String)
    (h1 : cacheKeyOf c a ∉ st.preloadedSet) :
    countKeyAttempts k st.trace + (if cacheKeyOf c a = k then 1 else 0)
        + (if k ∈ cacheKeyOf c a :: st.preloadedSet then 0 else 1)
      = countKeyAttempts k st.trace + (if k ∈ st.preloadedSet then 0 else 1) := by
  by_cases hk : cacheKeyOf c a = k
  · subst hk
    rw [if_pos rfl, if_pos (List.mem_cons_self _ _), if_neg h1]
  · have hmem : (k ∈ cacheKeyOf c a :: st.preloadedSet) ↔ k ∈ st.preloadedSet := by
      rw [List.mem_cons]
      constructor
      · rintro (h | h)
        · exact absurd h.symm hk
        · exact h
      · exact Or.inr
    rw [if_neg hk]
    by_cases hks : k ∈ st.preloadedSet
    · rw [if_pos (hmem.mpr hks), if_pos hks]
    · rw [if_neg (fun hx => hks (hmem.mp hx)), if_neg hks]

theorem keyMeasure_preloadImage (g : Nat → String → String) (o : Nat → String → Bool)
    (st : SchedulerState) (c : Nat) (a : String) (k : String) :
    keyMeasure k (preloadImage g o st c a) = keyMeasure k st := by
  rcases preloadImage_cases g o st c a with heq | ⟨h1, _, heq | heq⟩
  · rw [heq]
  · rw [heq]
    unfold keyMeasure
    rw [countKeyAttempts_append, countKeyAttempts_attempt]
    exact keyMeasure_attempt_step st c a k h1
  · rw [heq]
    unfold keyMeasure
    rw [countKeyAttempts_append, countKeyAttempts_attempt_failure]
    exact keyMeasure_attempt_step st c a k h1

theorem keyMeasure_processBatch (g : Nat → String → String) (o : Nat → String → Bool) :
    ∀ (b : List VaultData) (st : SchedulerState) (k : String),
      keyMeasure k (processBatch g o b st) = keyMeasure k st := by
  intro b
  induction b with
  | nil => intro st k; rfl
  | cons v rest ih =>
      intro st k
      show keyMeasure k (processBatch g o rest (preloadImage g o st v.chainId v.asset.address))
          = keyMeasure k st
      rw [ih, keyMeasure_preloadImage]

theorem keyMeasure_addDelay (st : SchedulerState) (k : String) :
    keyMeasure k (addDelay st) = keyMeasure k st := by
  unfold keyMeasure addDelay
  rw [countKeyAttempts_append, countKeyAttempts_delay]
  simp

theorem keyMeasure_runBatches (g : Nat → String → String) (o : Nat → String → Bool) :
    ∀ (bs : List (List VaultData)) (st : SchedulerState) (k : String),
      keyMeasure k (runBatches g o bs st) = keyMeasure k st := by
  intro bs
  induction bs with
  | nil => intro st k; rfl
  | cons b rest ih =>
      intro st k
      cases rest with
      | nil => exact keyMeasure_processBatch g o b st k
      | cons b2 rest2 =>
          show keyMeasure k (runBatches g o (b2 :: rest2)
              (addDelay (processBatch g o b st))) = keyMeasure k st
          rw [ih, keyMeasure_addDelay, keyMeasure_processBatch]

theorem keyMeasure_preloadInBatches (g : Nat → String → String) (o : Nat → String → Bool)
    (vaults : List VaultData) (st : SchedulerState) (k : String) :
    keyMeasure k (preloadInBatches g o vaults st) = keyMeasure k st := by
  rw [preloadInBatches_eq_runBatches, keyMeasure_runBatches]

theorem preloadImage_set_mono (g : Nat → String → String) (o : Nat → String → Bool)
    (st : SchedulerState) (c : Nat) (a : String) :
    ∀ x ∈ st.preloadedSet, x ∈ (preloadImage g o st c a).preloadedSet := by
  intro x hx
  rcases preloadImage_cases g o st c a with heq | ⟨_, _, heq | heq⟩ <;>
    rw [heq] <;> first | exact hx | exact List.mem_cons_of_mem _ hx

theorem processBatch_set_mono (g : Nat → String → String) (o : Nat → String → Bool) :
    ∀ (b : List VaultData) (st : SchedulerState),
      ∀ x ∈ st.preloadedSet, x ∈ (processBatch g o b st).preloadedSet := by
  intro b
  induction b with
  | nil => intro st x hx; exact hx
  | cons v rest ih =>
      intro st x hx
      exact ih _ x (preloadImage_set_mono g o st v.chainId v.asset.address x hx)

theorem runBatches_set_mono (g : Nat → String → String) (o : Nat → String → Bool) :
    ∀ (bs : List (List VaultData)) (st : SchedulerState),
      ∀ x ∈ st.preloadedSet, x ∈ (runBatches g o bs st).preloadedSet := by
  intro bs
  induction bs with
  | nil => intro st x hx; exact hx
  | cons b rest ih =>
      intro st x hx
      cases rest with
      | nil => exact processBatch_set_mono g o b st x hx
      | cons b2 rest2 =>
          exact ih _ x (processBatch_set_mono g o b st x hx)

theorem preloadInBatches_set_mono (g : Nat → String → String) (o : Nat → String → Bool)
    (vaults : List VaultData) (st : SchedulerState) :
    ∀ x ∈ st.preloadedSet, x ∈ (preloadInBatches g o vaults st).preloadedSet := by
  rw [preloadInBatches_eq_runBatches]
  exact runBatches_set_mono g o (batchesOf vaults) st

/-- C4: within a single run (the trace starts empty; the attempted set and
cache are whatever the mount has accumulated), every dedup key triggers at
most one load attempt — duplicates in the input, even inside one batch, and
failed loads (the oracle `o` is arbitrary, including always-failing) are
never attempted a second time. -/
theorem preload_attempt_at_most_once (g : Nat → String → String)
    (o : Nat → String → Bool) (vaults : List VaultData) (ps : List String)
    (qc : List (QueryKey × String)) (k : String) :
    countKeyAttempts k (preloadInBatches g o vaults ⟨ps, qc, []⟩).trace ≤ 1 := by
  have h := keyMeasure_preloadInBatches g o vaults ⟨ps, qc, []⟩ k
  unfold keyMeasure at h
  have h0 : countKeyAttempts k ([] : List Event) = 0 := rfl
  by_cases hk : k ∈ ps <;> simp [hk, h0] at h <;> omega

/-! ### Case-insensitive deduplication (C6) -/

theorem pair_run_single_attempt (g : Nat → String → String) (o : Nat → String → Bool)
    (c : Nat) (a b : String) (qc : List (QueryKey × String))
    (hl : lowercase a = lowercase b)
    (hcache : truthy (lookupCache qc (queryKeyOf c a)) = false) :
    countKeyAttempts (cacheKeyOf c a)
      (preloadInBatches g o [⟨c, ⟨a⟩⟩, ⟨c, ⟨b⟩⟩] ⟨[], qc, []⟩).trace = 1 := by
  have hkeys : cacheKeyOf c b = cacheKeyOf c a := by
    unfold cacheKeyOf
    rw [hl]
  have hbatch : preloadInBatches g o [⟨c, ⟨a⟩⟩, ⟨c, ⟨b⟩⟩] ⟨[], qc, []⟩
      = preloadImage g o (preloadImage g o ⟨[], qc, []⟩ c a) c b := by
    rw [preloadInBatches_eq_runBatches]
    rfl
  rw [hbatch]
  have h1 : cacheKeyOf c a ∉ (⟨[], qc, []⟩ : SchedulerState).preloadedSet := by
    simp
  by_cases ho : o c a = true
  · rw [preloadImage_load_ok g o ⟨[], qc, []⟩ c a h1 hcache ho]
    rw [preloadImage_skip_set g o _ c b
      (by rw [hkeys]; exact List.mem_cons_self _ _)]
    show countKeyAttempts (cacheKeyOf c a) ([] ++ [Event.attempt c a]) = 1
    rw [List.nil_append, countKeyAttempts_attempt, if_pos rfl]
  · rw [Bool.not_eq_true] at ho
    rw [preloadImage_load_fail g o ⟨[], qc, []⟩ c a h1 hcache ho]
    rw [preloadImage_skip_set g o _ c b
      (by rw [hkeys]; exact List.mem_cons_self _ _)]
    show countKeyAttempts (cacheKeyOf c a)
        ([] ++ [Event.attempt c a, Event.failure a]) = 1
    rw [List.nil_append, countKeyAttempts_attempt_failure, if_pos rfl]

/-- C6: two vault references with the same chain id whose addresses agree up
to letter case derive the same dedup key and the same query key; within any
run at most one load attempt is ever issued for that key; and a run over
exactly the two references (starting with nothing attempted and no truthy
cache entry for the key) issues exactly one load attempt for it. -/
theorem preload_case_insensitive_dedup (c : Nat) (a b : String)
    (h : lowercase a = lowercase b) :
    cacheKeyOf c a = cacheKeyOf c b
    ∧ queryKeyOf c a = queryKeyOf c b
    ∧ (∀ (g : Nat → String → String) (o : Nat → String → Bool)
         (vaults : List VaultData) (ps : List String) (qc : List (QueryKey × String)),
        countKeyAttempts (cacheKeyOf c a)
          (preloadInBatches g o vaults ⟨ps, qc, []⟩).trace ≤ 1)
    ∧ ∀ (g : Nat → String → String) (o : Nat → String → Bool)
        (qc : List (QueryKey × String)),
        truthy (lookupCache qc (queryKeyOf c a)) = false →
        countKeyAttempts (cacheKeyOf c a)
          (preloadInBatches g o [⟨c, ⟨a⟩⟩, ⟨c, ⟨b⟩⟩] ⟨[], qc, []⟩).trace = 1 := by
  refine ⟨by unfold cacheKeyOf; rw [h], by unfold queryKeyOf; rw [h], ?_, ?_⟩
  · intro g o vaults ps qc
    have hm := keyMeasure_preloadInBatches g o vaults ⟨ps, qc, []⟩ (cacheKeyOf c a)
    unfold keyMeasure at hm
    have h0 : countKeyAttempts (cacheKeyOf c a) ([] : List Event) = 0 := rfl
    by_cases hk : cacheKeyOf c a ∈ ps <;> simp [hk, h0] at hm <;> omega
  · intro g o qc hcache
    exact pair_run_single_attempt g o c a b qc h hcache

/-- Witness for C6 at `a = "0xAB"`, `b = "0xab"`: same key, and a run over
the two references issues exactly one attempt. -/
theorem preload_case_insensitive_dedup_witness :
    lowercase "0xAB" = lowercase "0xab"
    ∧ cacheKeyOf 1 "0xAB" = cacheKeyOf 1 "0xab"
    ∧ truthy (lookupCache [] (queryKeyOf 1 "0xAB")) = false
    ∧ countKeyAttempts (cacheKeyOf 1 "0xAB")
        (preloadInBatches gSample oSample
          [⟨1, ⟨"0xAB"⟩⟩, ⟨1, ⟨"0xab"⟩⟩] ⟨[], [], []⟩).trace = 1 :=
  ⟨by decide,
   (preload_case_insensitive_dedup 1 "0xAB" "0xab" (by decide)).1,
   by decide,
   (preload_case_insensitive_dedup 1 "0xAB" "0xab" (by decide)).2.2.2
     gSample oSample [] (by decide)⟩

/-! ### Cache read-before-write check (C5, C10) -/

/-- C5 counterexample: the shared cache holds a value (the empty string)
under the reference's key, yet a load attempt is still issued, because the
source tests truthiness (`if (cachedData) return`), not presence. -/
theorem preload_skip_cached_counterexample :
    lookupCache [(("token-image", 1, "0xab"), "")] (queryKeyOf 1 "0xab") = some ""
    ∧ (preloadImage gSample oSample
        ⟨[], [(("token-image", 1, "0xab"), "")], []⟩ 1 "0xab").trace
        = [Event.attempt 1 "0xab"] := by
  constructor <;> decide

/-- C5 (amended): a vault reference whose cache key already has a truthy
(non-empty) value in the shared cache at the time it is processed produces
no load attempt: the `preloadImage` call returns the state unchanged. -/
theorem preload_skip_cached (g : Nat → String → String) (o : Nat → String → Bool)
    (st : SchedulerState) (c : Nat) (a : String)
    (h : truthy (lookupCache st.cache (queryKeyOf c a)) = true) :
    preloadImage g o st c a = st := by
  by_cases h1 : cacheKeyOf c a ∈ st.preloadedSet
  · exact preloadImage_skip_set g o st c a h1
  · exact preloadImage_skip_cache g o st c a h1 h

/-- Witness for amended C5: a non-empty cached URL suppresses the attempt. -/
theorem preload_skip_cached_witness :
    truthy (lookupCache [(("token-image", 1, "0xab"), "img")] (queryKeyOf 1 "0xab")) = true
    ∧ preloadImage gSample oSample
        ⟨[], [(("token-image", 1, "0xab"), "img")], []⟩ 1 "0xab"
      = ⟨[], [(("token-image", 1, "0xab"), "img")], []⟩ :=
  ⟨by decide,
   preload_skip_cached gSample oSample
     ⟨[], [(("token-image", 1, "0xab"), "img")], []⟩ 1 "0xab" (by decide)⟩

/-- C10: the read-before-write check tests JavaScript truthiness, not
presence: a cached falsy value (the empty string) under the reference's
query key does not suppress the load — the reference is still marked
attempted and a load attempt is issued — whereas any non-empty cached
string suppresses the attempt entirely. -/
theorem preload_cache_truthiness (g : Nat → String → String) (o : Nat → String → Bool)
    (st : SchedulerState) (c : Nat) (a : String) :
    (lookupCache st.cache (queryKeyOf c a) = some "" →
      cacheKeyOf c a ∉ st.preloadedSet →
      (preloadImage g o st c a).preloadedSet = cacheKeyOf c a :: st.preloadedSet
      ∧ attemptsOf (preloadImage g o st c a).trace = attemptsOf st.trace ++ [(c, a)])
    ∧ (∀ v : String, lookupCache st.cache (queryKeyOf c a) = some v → v ≠ "" →
        preloadImage g o st c a = st) := by
  constructor
  · intro hv h1
    have h2 : truthy (lookupCache st.cache (queryKeyOf c a)) = false := by
      rw [hv]
      rfl
    by_cases h3 : o c a = true
    · rw [preloadImage_load_ok g o st c a h1 h2 h3]
      refine ⟨rfl, ?_⟩
      dsimp only
      rw [attemptsOf_append]
      rfl
    · rw [Bool.not_eq_true] at h3
      rw [preloadImage_load_fail g o st c a h1 h2 h3]
      refine ⟨rfl, ?_⟩
      dsimp only
      rw [attemptsOf_append]
      rfl
  · intro v hv hne
    have h2 : truthy (lookupCache st.cache (queryKeyOf c a)) = true := by
      rw [hv]
      simp [truthy, hne]
    by_cases h1 : cacheKeyOf c a ∈ st.preloadedSet
    · exact preloadImage_skip_set g o st c a h1
    · exact preloadImage_skip_cache g o st c a h1 h2

/-- Witness for C10: with the empty string cached the item is attempted;
with a non-empty string cached it is not. -/
theorem preload_cache_truthiness_witness :
    lookupCache [(("token-image", 1, "0xab"), "")] (queryKeyOf 1 "0xab") = some ""
    ∧ cacheKeyOf 1 "0xab" ∉
        (⟨[], [(("token-image", 1, "0xab"), "")], []⟩ : SchedulerState).preloadedSet
    ∧ (preloadImage gSample oSample
        ⟨[], [(("token-image", 1, "0xab"), "")], []⟩ 1 "0xab").preloadedSet
        = cacheKeyOf 1 "0xab"
          :: (⟨[], [(("token-image", 1, "0xab"), "")], []⟩ : SchedulerState).preloadedSet
    ∧ ("img" : String) ≠ ""
    ∧ preloadImage gSample oSample
        ⟨[], [(("token-image", 1, "0xab"), "img")], []⟩ 1 "0xab"
      = ⟨[], [(("token-image", 1, "0xab"), "img")], []⟩ :=
  ⟨by decide, by decide,
   ((preload_cache_truthiness gSample oSample
      ⟨[], [(("token-image", 1, "0xab"), "")], []⟩ 1 "0xab").1
      (by decide) (by decide)).1,
   by decide,
   (preload_cache_truthiness gSample oSample
      ⟨[], [(("token-image", 1, "0xab"), "img")], []⟩ 1 "0xab").2
      "img" (by decide) (by decide)⟩

/-! ### Scope of the attempted set across runs (C7) -/

/-- C7 counterexample: the hook's `preloadedSet` ref is created once per
mount and is never cleared when the input changes.  After a first run whose
only item's load fails (so nothing is cached), a second run with a changed
input that still contains that reference issues no new attempt for it: the
attempt count for its key stays at 1 through both runs, whereas a second
run started with an empty attempted set (what the claim asserts) would
attempt it again. -/
theorem preload_run_scoped_set_counterexample :
    (effectRun gSample oFail runOneInput stEmpty).preloadedSet = [cacheKeyOf 1 "0xaa"]
    ∧ lookupCache (effectRun gSample oFail runOneInput stEmpty).cache
        (queryKeyOf 1 "0xaa") = none
    ∧ countKeyAttempts (cacheKeyOf 1 "0xaa")
        (effectRun gSample oFail runOneInput stEmpty).trace = 1
    ∧ countKeyAttempts (cacheKeyOf 1 "0xaa")
        (effectRun gSample oFail runTwoInput
          (effectRun gSample oFail runOneInput stEmpty)).trace = 1
    ∧ countKeyAttempts (cacheKeyOf 1 "0xaa")
        (effectRun gSample oFail runTwoInput
          ⟨[], (effectRun gSample oFail runOneInput stEmpty).cache, []⟩).trace = 1 := by
  simp only [effectRun, preloadInBatches_eq_runBatches]
  decide

/-- C7 (amended): the attempted set is scoped to the component mount, not to
a single run: a re-run of the effect (triggered by an input change) threads
the same `preloadedSet` ref, every key in it survives the new run, and a key
attempted in a prior run of the same mount — including one whose load
failed — is skipped by the attempted-set check, so the new run issues no
load attempt for it. -/
theorem preload_set_persists_across_runs (g : Nat → String → String)
    (o : Nat → String → Bool) (vaults : List VaultData) (st : SchedulerState)
    (k : String) (h : k ∈ st.preloadedSet) :
    k ∈ (effectRun g o vaults st).preloadedSet
    ∧ countKeyAttempts k (effectRun g o vaults st).trace
        = countKeyAttempts k st.trace := by
  unfold effectRun
  by_cases hz : vaults.length = 0
  · rw [if_pos hz]
    exact ⟨h, rfl⟩
  · rw [if_neg hz]
    refine ⟨preloadInBatches_set_mono g o vaults st k h, ?_⟩
    have hm := keyMeasure_preloadInBatches g o vaults st k
    unfold keyMeasure at hm
    rw [if_pos h, if_pos (preloadInBatches_set_mono g o vaults st k h)] at hm
    omega

/-- Witness for amended C7: with the key of `⟨1, "0xaa"⟩` already attempted,
a new run over an input containing that reference issues no new attempt. -/
theorem preload_set_persists_across_runs_witness :
    cacheKeyOf 1 "0xaa" ∈ (⟨[cacheKeyOf 1 "0xaa"], [], []⟩ : SchedulerState).preloadedSet
    ∧ countKeyAttempts (cacheKeyOf 1 "0xaa")
        (effectRun gSample oSample runTwoInput
          ⟨[cacheKeyOf 1 "0xaa"], [], []⟩).trace
      = countKeyAttempts (cacheKeyOf 1 "0xaa")
          (⟨[cacheKeyOf 1 "0xaa"], [], []⟩ : SchedulerState).trace :=
  ⟨by decide,
   (preload_set_persists_across_runs gSample oSample runTwoInput
     ⟨[cacheKeyOf 1 "0xaa"], [], []⟩ (cacheKeyOf 1 "0xaa") (by decide)).2⟩

/-! ### Cancellation before the initial deferral (C8) -/

/-- C8: cancelling the effect (unmount or input change) strictly before the
100 ms deferral elapses clears the pending timer, so the deferred task never
runs: the state is returned unchanged — zero load attempts are issued, and
no cache read, cache write, attempted-set update, or trace event occurs. -/
theorem preload_cancel_before_deferral (g : Nat → String → String)
    (o : Nat → String → Bool) (vaults : List VaultData) (st : SchedulerState)
    (t : Nat) (h : t < initialDelayMs) :
    mountEffect g o vaults (some t) st = st
    ∧ attemptsOf (mountEffect g o vaults (some t) st).trace = attemptsOf st.trace
    ∧ (mountEffect g o vaults (some t) st).cache = st.cache
    ∧ (mountEffect g o vaults (some t) st).preloadedSet = st.preloadedSet := by
  unfold mountEffect
  dsimp only
  rw [if_pos h]
  exact ⟨rfl, rfl, rfl, rfl⟩

/-- Witness for C8: cancelling at 50 ms (before the 100 ms deferral) leaves
the mount state untouched. -/
theorem preload_cancel_before_deferral_witness :
    50 < initialDelayMs
    ∧ mountEffect gSample oSample (sampleVaults 3) (some 50) stEmpty = stEmpty :=
  ⟨by decide,
   (preload_cancel_before_deferral gSample oSample (sampleVaults 3) stEmpty 50
     (by decide)).1⟩

/-! ### Frame conditions (C9) -/

theorem preloadImage_cache_frame (g : Nat → String → String) (o : Nat → String → Bool)
    (st : SchedulerState) (c : Nat) (a : String) (q : QueryKey) :
    lookupCache (preloadImage g o st c a).cache q = lookupCache st.cache q
    ∨ (q = queryKeyOf c a ∧ truthy (lookupCache st.cache q) = false) := by
  rcases preloadImage_cases g o st c a with heq | ⟨_, h2, heq | heq⟩ <;> rw [heq]
  · left
    rfl
  · by_cases hq : q = queryKeyOf c a
    · right
      exact ⟨hq, by rw [hq]; exact h2⟩
    · left
      dsimp only
      exact lookupCache_setCache_ne st.cache (queryKeyOf c a) q (g c a)
        (fun hx => hq hx.symm)
  · left
    rfl

theorem preloadImage_cache_truthy_frame (g : Nat → String → String)
    (o : Nat → String → Bool) (st : SchedulerState) (c : Nat) (a : String)
    (q : QueryKey) (h : truthy (lookupCache st.cache q) = true) :
    lookupCache (preloadImage g o st c a).cache q = lookupCache st.cache q := by
  rcases preloadImage_cache_frame g o st c a q with heq | ⟨_, hf⟩
  · exact heq
  · rw [h] at hf
    exact absurd hf (by simp)

theorem processBatch_cache_truthy_frame (g : Nat → String → String)
    (o : Nat → String → Bool) :
    ∀ (b : List VaultData) (st : SchedulerState) (q : QueryKey),
      truthy (lookupCache st.cache q) = true →
      lookupCache (processBatch g o b st).cache q = lookupCache st.cache q := by
  intro b
  induction b with
  | nil => intro st q _; rfl
  | cons v rest ih =>
      intro st q h
      have hstep := preloadImage_cache_truthy_frame g o st v.chainId v.asset.address q h
      have htr : truthy (lookupCache (preloadImage g o st v.chainId v.asset.address).cache q)
          = true := by rw [hstep]; exact h
      show lookupCache (processBatch g o rest (preloadImage g o st v.chainId v.asset.address)).cache q
          = lookupCache st.cache q
      rw [ih _ q htr, hstep]

theorem runBatches_cache_truthy_frame (g : Nat → String → String)
    (o : Nat → String → Bool) :
    ∀ (bs : List (List VaultData)) (st : SchedulerState) (q : QueryKey),
      truthy (lookupCache st.cache q) = true →
      lookupCache (runBatches g o bs st).cache q = lookupCache st.cache q := by
  intro bs
  induction bs with
  | nil => intro st q _; rfl
  | cons b rest ih =>
      intro st q h
      cases rest with
      | nil => exact processBatch_cache_truthy_frame g o b st q h
      | cons b2 rest2 =>
          have hstep := processBatch_cache_truthy_frame g o b st q h
          have htr : truthy (lookupCache (addDelay (processBatch g o b st)).cache q) = true := by
            show truthy (lookupCache (processBatch g o b st).cache q) = true
            rw [hstep]
            exact h
          show lookupCache (runBatches g o (b2 :: rest2)
              (addDelay (processBatch g o b st))).cache q = lookupCache st.cache q
          rw [ih _ q htr]
          show lookupCache (processBatch g o b st).cache q = lookupCache st.cache q
          exact hstep

theorem processBatch_cache_scope (g : Nat → String → String) (o : Nat → String → Bool) :
    ∀ (b : List VaultData) (st : SchedulerState) (q : QueryKey),
      lookupCache (processBatch g o b st).cache q = lookupCache st.cache q
      ∨ ∃ v ∈ b, q = queryKeyOf v.chainId v.asset.address := by
  intro b
  induction b with
  | nil => intro st q; left; rfl
  | cons v rest ih =>
      intro st q
      rcases ih (preloadImage g o st v.chainId v.asset.address) q with heq | ⟨w, hw, hq⟩
      · rcases preloadImage_cache_frame g o st v.chainId v.asset.address q with heq2 | ⟨hq, _⟩
        · left
          show lookupCache (processBatch g o rest
              (preloadImage g o st v.chainId v.asset.address)).cache q = lookupCache st.cache q
          rw [heq, heq2]
        · right
          exact ⟨v, List.mem_cons_self _ _, hq⟩
      · right
        exact ⟨w, List.mem_cons_of_mem _ hw, hq⟩

theorem runBatches_cache_scope (g : Nat → String → String) (o : Nat → String → Bool) :
    ∀ (bs : List (List VaultData)) (st : SchedulerState) (q : QueryKey),
      lookupCache (runBatches g o bs st).cache q = lookupCache st.cache q
      ∨ ∃ b ∈ bs, ∃ v ∈ b, q = queryKeyOf v.chainId v.asset.address := by
  intro bs
  induction bs with
  | nil => intro st q; left; rfl
  | cons b rest ih =>
      intro st q
      cases rest with
      | nil =>
          rcases processBatch_cache_scope g o b st q with heq | ⟨v, hv, hq⟩
          · left
            exact heq
          · right
            exact ⟨b, List.mem_cons_self _ _, v, hv, hq⟩
      | cons b2 rest2 =>
          rcases ih (addDelay (processBatch g o b st)) q with heq | ⟨b', hb', v, hv, hq⟩
          · rcases processBatch_cache_scope g o b st q with heq2 | ⟨v, hv, hq⟩
            · left
              show lookupCache (runBatches g o (b2 :: rest2)
                  (addDelay (processBatch g o b st))).cache q = lookupCache st.cache q
              rw [heq]
              exact heq2
            · right
              exact ⟨b, List.mem_cons_self _ _, v, hv, hq⟩
          · right
            exact ⟨b', List.mem_cons_of_mem _ hb', v, hv, hq⟩

theorem preloadImage_trace_ext (g : Nat → String → String) (o : Nat → String → Bool)
    (st : SchedulerState) (c : Nat) (a : String) :
    ∃ δ : List Event, (preloadImage g o st c a).trace = st.trace ++ δ := by
  rcases preloadImage_cases g o st c a with heq | ⟨_, _, heq | heq⟩ <;> rw [heq]
  · exact ⟨[], by simp⟩
  · exact ⟨[Event.attempt c a], rfl⟩
  · exact ⟨[Event.attempt c a, Event.failure a], rfl⟩

theorem processBatch_trace_ext (g : Nat → String → String) (o : Nat → String → Bool) :
    ∀ (b : List VaultData) (st : SchedulerState),
      ∃ δ : List Event, (processBatch g o b st).trace = st.trace ++ δ := by
  intro b
  induction b with
  | nil => intro st; exact ⟨[], by rw [List.append_nil]; rfl⟩
  | cons v rest ih =>
      intro st
      obtain ⟨δ1, h1⟩ := preloadImage_trace_ext g o st v.chainId v.asset.address
      obtain ⟨δ2, h2⟩ := ih (preloadImage g o st v.chainId v.asset.address)
      refine ⟨δ1 ++ δ2, ?_⟩
      show (processBatch g o rest (preloadImage g o st v.chainId v.asset.address)).trace
          = st.trace ++ (δ1 ++ δ2)
      rw [h2, h1, List.append_assoc]

theorem runBatches_trace_ext (g : Nat → String → String) (o : Nat → String → Bool) :
    ∀ (bs : List (List VaultData)) (st : SchedulerState),
      ∃ δ : List Event, (runBatches g o bs st).trace = st.trace ++ δ := by
  intro bs
  induction bs with
  | nil => intro st; exact ⟨[], by rw [List.append_nil]; rfl⟩
  | cons b rest ih =>
      intro st
      cases rest with
      | nil => exact processBatch_trace_ext g o b st
      | cons b2 rest2 =>
          obtain ⟨δ1, h1⟩ := processBatch_trace_ext g o b st
          obtain ⟨δ2, h2⟩ := ih (addDelay (processBatch g o b st))
          refine ⟨δ1 ++ [Event.delay delay] ++ δ2, ?_⟩
          show (runBatches g o (b2 :: rest2) (addDelay (processBatch g o b st))).trace
              = st.trace ++ (δ1 ++ [Event.delay delay] ++ δ2)
          rw [h2]
          show (processBatch g o b st).trace ++ [Event.delay delay] ++ δ2
              = st.trace ++ (δ1 ++ [Event.delay delay] ++ δ2)
          rw [h1]
          simp [List.append_assoc]

/-- C9: the scheduler is a pure state transformer (it returns nothing but
its effects on the shared state; the input vault list is read-only and
untouched): a complete run only grows the private attempted set, only
appends to the diagnostic trace, never disturbs an existing truthy cache
entry, and changes the cache only under query keys derived from input vault
references. -/
theorem preload_frame (g : Nat → String → String) (o : Nat → String → Bool)
    (vaults : List VaultData) (st : SchedulerState) :
    (∀ x ∈ st.preloadedSet, x ∈ (preloadInBatches g o vaults st).preloadedSet)
    ∧ (∃ δ : List Event, (preloadInBatches g o vaults st).trace = st.trace ++ δ)
    ∧ (∀ q : QueryKey, truthy (lookupCache st.cache q) = true →
        lookupCache (preloadInBatches g o vaults st).cache q = lookupCache st.cache q)
    ∧ (∀ q : QueryKey,
        lookupCache (preloadInBatches g o vaults st).cache q = lookupCache st.cache q
        ∨ ∃ v ∈ vaults, q = queryKeyOf v.chainId v.asset.address) := by
  refine ⟨preloadInBatches_set_mono g o vaults st, ?_, ?_, ?_⟩
  · rw [preloadInBatches_eq_runBatches]
    exact runBatches_trace_ext g o (batchesOf vaults) st
  · intro q h
    rw [preloadInBatches_eq_runBatches]
    exact runBatches_cache_truthy_frame g o (batchesOf vaults) st q h
  · intro q
    rw [preloadInBatches_eq_runBatches]
    rcases runBatches_cache_scope g o (batchesOf vaults) st q with heq | ⟨b, hb, v, hv, hq⟩
    · left
      exact heq
    · right
      refine ⟨v, ?_, hq⟩
      rw [← batchesOf_flatten vaults]
      exact List.mem_flatten.mpr ⟨b, hb, hv⟩

/-- Witness for C9: an unrelated attempted key and an unrelated truthy cache
entry survive a concrete 2-item run. -/
theorem preload_frame_witness :
    "k0" ∈ (⟨["k0"], [(("token-image", 7, "0xzz"), "img")], []⟩ : SchedulerState).preloadedSet
    ∧ "k0" ∈ (preloadInBatches gSample oSample (sampleVaults 2)
        ⟨["k0"], [(("token-image", 7, "0xzz"), "img")], []⟩).preloadedSet
    ∧ truthy (lookupCache
        (⟨["k0"], [(("token-image", 7, "0xzz"), "img")], []⟩ : SchedulerState).cache
        ("token-image", 7, "0xzz")) = true
    ∧ lookupCache (preloadInBatches gSample oSample (sampleVaults 2)
          ⟨["k0"], [(("token-image", 7, "0xzz"), "img")], []⟩).cache
        ("token-image", 7, "0xzz")
      = lookupCache
          (⟨["k0"], [(("token-image", 7, "0xzz"), "img")], []⟩ : SchedulerState).cache
          ("token-image", 7, "0xzz") :=
  ⟨by decide,
   (preload_frame gSample oSample (sampleVaults 2)
      ⟨["k0"], [(("token-image", 7, "0xzz"), "img")], []⟩).1 "k0" (by decide),
   by decide,
   (preload_frame gSample oSample (sampleVaults 2)
      ⟨["k0"], [(("token-image", 7, "0xzz"), "img")], []⟩).2.2.1
     ("token-image", 7, "0xzz") (by decide)⟩
